import Mathlib

/-!
Verification of the controlled-decomposition core
(`pennylane/ops/op_math/controlled_decompositions.py`).

The development shallowly embeds the module's functions over exact rational
arithmetic: a complex number is a pair of rationals (`Cplx`), a dense 2x2
complex matrix is `M2`, and the elementary operations the decomposers emit
are the inductive `Op`.  Floating-point numbers are modelled by `ℚ` and the
`isclose` tolerance tests keep their exact thresholds.  External
collaborators that are not part of the module (`scipy.optimize.root`, the
SU(2) global-phase normalizer `_convert_to_su2`, and the Euler-angle
fallback extractor) are passed in as explicit function parameters, so the
theorems quantify over every behaviour those collaborators may have.

The matrix semantics used for the reconstruction theorems is block
semantics: every emitted operation acts on the target qubit by a 2x2 block
that may depend on which control wires are in the active basis state
(`opBlock`), and the controlled version of a single-qubit unitary acts by
the unitary itself exactly when all controls are active (`ctrlBlock`).
This is faithful because every emitted operation is diagonal in the control
wires.  Rotation gates are interpreted through an abstract angle valuation
`val : ℚ → Cplx` sending an angle `a` to a unit complex number standing for
`exp(i*a/2)`; the reconstruction theorems assume only the group laws of
such a valuation, so they cover every real instantiation.
-/

namespace PennyLane

/-- Complex number with rational real and imaginary parts, the exact model of
the complex floating-point scalars used by the module. -/
structure Cplx where
  re : ℚ
  im : ℚ
deriving DecidableEq

namespace Cplx

theorem ext2 {z w : Cplx} (hre : z.re = w.re) (him : z.im = w.im) : z = w := by
  cases z
  cases w
  simp_all

instance : Zero Cplx := ⟨⟨0, 0⟩⟩

instance : One Cplx := ⟨⟨1, 0⟩⟩

instance : Add Cplx := ⟨fun z w => ⟨z.re + w.re, z.im + w.im⟩⟩

instance : Neg Cplx := ⟨fun z => ⟨-z.re, -z.im⟩⟩

instance : Mul Cplx := ⟨fun z w => ⟨z.re * w.re - z.im * w.im, z.re * w.im + z.im * w.re⟩⟩

@[simp] theorem zero_re : (0 : Cplx).re = 0 := rfl

@[simp] theorem zero_im : (0 : Cplx).im = 0 := rfl

@[simp] theorem one_re : (1 : Cplx).re = 1 := rfl

@[simp] theorem one_im : (1 : Cplx).im = 0 := rfl

@[simp] theorem add_re (z w : Cplx) : (z + w).re = z.re + w.re := rfl

@[simp] theorem add_im (z w : Cplx) : (z + w).im = z.im + w.im := rfl

@[simp] theorem neg_re (z : Cplx) : (-z).re = -z.re := rfl

@[simp] theorem neg_im (z : Cplx) : (-z).im = -z.im := rfl

@[simp] theorem mul_re (z w : Cplx) : (z * w).re = z.re * w.re - z.im * w.im := rfl

@[simp] theorem mul_im (z w : Cplx) : (z * w).im = z.re * w.im + z.im * w.re := rfl

instance : CommRing Cplx where
  add_assoc a b c := by apply ext2 <;> simp <;> ring
  zero_add a := by apply ext2 <;> simp
  add_zero a := by apply ext2 <;> simp
  add_comm a b := by apply ext2 <;> simp <;> ring
  mul_assoc a b c := by apply ext2 <;> simp <;> ring
  one_mul a := by apply ext2 <;> simp
  mul_one a := by apply ext2 <;> simp
  left_distrib a b c := by apply ext2 <;> simp <;> ring
  right_distrib a b c := by apply ext2 <;> simp <;> ring
  zero_mul a := by apply ext2 <;> simp
  mul_zero a := by apply ext2 <;> simp
  mul_comm a b := by apply ext2 <;> simp <;> ring
  neg_add_cancel a := by apply ext2 <;> simp
  nsmul := nsmulRec
  zsmul := zsmulRec

@[simp] theorem sub_re (z w : Cplx) : (z - w).re = z.re - w.re := by
  show (z + -w).re = z.re - w.re
  simp
  ring

@[simp] theorem sub_im (z w : Cplx) : (z - w).im = z.im - w.im := by
  show (z + -w).im = z.im - w.im
  simp
  ring

/-- Complex conjugate. -/
def conj (z : Cplx) : Cplx := ⟨z.re, -z.im⟩

@[simp] theorem conj_re (z : Cplx) : (conj z).re = z.re := rfl

@[simp] theorem conj_im (z : Cplx) : (conj z).im = -z.im := rfl

@[simp] theorem conj_conj (z : Cplx) : conj (conj z) = z := by
  apply ext2 <;> simp

theorem conj_mul_conj (z w : Cplx) : conj z * conj w = conj (z * w) := by
  apply ext2 <;> simp
  ring

@[simp] theorem conj_one : conj (1 : Cplx) = 1 := by
  apply ext2 <;> simp

/-- Squared modulus, the exact stand-in for `abs` on complex scalars. -/
def normSq (z : Cplx) : ℚ := z.re ^ 2 + z.im ^ 2

theorem ext_iff2 {z w : Cplx} : z = w ↔ z.re = w.re ∧ z.im = w.im := by
  constructor
  · intro h
    simp [h]
  · intro h
    exact ext2 h.1 h.2

end Cplx

open Cplx

/-- Dense 2x2 complex matrix: `a b / c d` are the entries
`(0,0) (0,1) / (1,0) (1,1)` of the numpy array. -/
structure M2 where
  a : Cplx
  b : Cplx
  c : Cplx
  d : Cplx
deriving DecidableEq

namespace M2

theorem ext4 {m n : M2} (ha : m.a = n.a) (hb : m.b = n.b) (hc : m.c = n.c)
    (hd : m.d = n.d) : m = n := by
  cases m
  cases n
  simp_all

/-- Matrix product (`@` on 2x2 numpy arrays). -/
def mul (m n : M2) : M2 :=
  ⟨m.a * n.a + m.b * n.c, m.a * n.b + m.b * n.d,
   m.c * n.a + m.d * n.c, m.c * n.b + m.d * n.d⟩

instance : Mul M2 := ⟨M2.mul⟩

instance : One M2 := ⟨⟨1, 0, 0, 1⟩⟩

/-- Entrywise difference (`-` on numpy arrays). -/
def sub (m n : M2) : M2 := ⟨m.a - n.a, m.b - n.b, m.c - n.c, m.d - n.d⟩

instance : Sub M2 := ⟨M2.sub⟩

@[simp] theorem mul_a (m n : M2) : (m * n).a = m.a * n.a + m.b * n.c := rfl

@[simp] theorem mul_b (m n : M2) : (m * n).b = m.a * n.b + m.b * n.d := rfl

@[simp] theorem mul_c (m n : M2) : (m * n).c = m.c * n.a + m.d * n.c := rfl

@[simp] theorem mul_d (m n : M2) : (m * n).d = m.c * n.b + m.d * n.d := rfl

@[simp] theorem one_a : (1 : M2).a = 1 := rfl

@[simp] theorem one_b : (1 : M2).b = 0 := rfl

@[simp] theorem one_c : (1 : M2).c = 0 := rfl

@[simp] theorem one_d : (1 : M2).d = 1 := rfl

@[simp] theorem sub_a (m n : M2) : (m - n).a = m.a - n.a := rfl

@[simp] theorem sub_b (m n : M2) : (m - n).b = m.b - n.b := rfl

@[simp] theorem sub_c (m n : M2) : (m - n).c = m.c - n.c := rfl

@[simp] theorem sub_d (m n : M2) : (m - n).d = m.d - n.d := rfl

instance : Monoid M2 where
  mul_assoc m n k := by apply ext4 <;> simp <;> ring
  one_mul m := by apply ext4 <;> simp
  mul_one m := by apply ext4 <;> simp

/-- Conjugate transpose. -/
def adjoint (m : M2) : M2 := ⟨conj m.a, conj m.c, conj m.b, conj m.d⟩

/-- Determinant (`numpy.linalg.det` on a 2x2 array). -/
def det (m : M2) : Cplx := m.a * m.d - m.b * m.c

end M2

/-- Transcription of `_matrix_adjoint`: conjugate transpose of the matrix. -/
def _matrix_adjoint (matrix : M2) : M2 := matrix.adjoint

/-- Transcription of `_param_su2`: the matrix in SU(2) form built from the
four real parameters; in SU(2) only when the parameters lie on the unit
3-sphere. -/
def _param_su2 (ar ai br bi : ℚ) : M2 :=
  ⟨⟨ar, ai⟩, ⟨-br, bi⟩, ⟨br, bi⟩, ⟨ar, -ai⟩⟩

/-- Pauli X matrix (the `sx` array of `_bisect_compute_a`). -/
def sx : M2 := ⟨0, 1, 1, 0⟩

/-- Transcription of `_flatreals` applied to a one-dimensional array: the
concatenation of the real parts and the imaginary parts. -/
def _flatreals (x : List Cplx) : List ℚ :=
  x.map Cplx.re ++ x.map Cplx.im

/-- First row of a matrix: `m[0]` on a 2x2 numpy array. -/
def row0 (m : M2) : List Cplx := [m.a, m.b]

/-- Reconstructed product `At X A X At X A X` (the local `expect_u` of the
closure inside `_bisect_compute_a`), where `A` is the SU(2)-form matrix of
the four real parameters `x` and `At` its adjoint. -/
def expect_u (x : ℚ × ℚ × ℚ × ℚ) : M2 :=
  let a := _param_su2 x.1 x.2.1 x.2.2.1 x.2.2.2
  let at_ := _matrix_adjoint a
  at_ * sx * a * sx * at_ * sx * a * sx

/-- Transcription of the closure `optfunc` inside `_bisect_compute_a`:
the objective handed to the root solver, evaluated at the four real SU(2)
parameters `x`.  Note `(expect_u - u)[0]` on a 2x2 numpy array is the first
row, so the objective is the flattened real and imaginary parts of the two
first-row entries of the difference. -/
def optfunc (u : M2) (x : ℚ × ℚ × ℚ × ℚ) : List ℚ :=
  _flatreals (row0 (expect_u x - u))

/-- Result of the external root solver `scipy.optimize.root`: the success
flag and the solution vector. -/
structure RootResult where
  success : Bool
  x : ℚ × ℚ × ℚ × ℚ

/-- The external root solver itself, as an abstract function of the
objective and of the initial guess. -/
abbrev RootSolver := ((ℚ × ℚ × ℚ × ℚ) → List ℚ) → (ℚ × ℚ × ℚ × ℚ) → RootResult

/-- Errors the module raises: the two `ValueError` argument rejections, the
`ValueError` for solver non-convergence, and the `AssertionError` for the
post-hoc SU(2) determinant check.  Each constructor carries the payload the
source interpolates into the message. -/
inductive PLErr where
  | valueNotSingleQubit (className : String)
  | valueNotRealOffDiag (u : M2)
  | valueRootNotConverged (u : M2)
  | assertNotSU2 (a : M2)
deriving DecidableEq

/-- Rendering of a rational scalar used inside error messages. -/
def qstr (q : ℚ) : String := toString q.num ++ "/" ++ toString q.den

/-- Rendering of a complex scalar used inside error messages. -/
def cstr (z : Cplx) : String := qstr z.re ++ "+" ++ qstr z.im ++ "j"

/-- Rendering of a matrix used inside error messages, standing in for
numpy's array printing. -/
def M2.render (m : M2) : String :=
  "[[" ++ cstr m.a ++ " " ++ cstr m.b ++ "] [" ++ cstr m.c ++ " " ++ cstr m.d ++ "]]"

/-- Message text of each error, mirroring the source's f-strings. -/
def PLErr.message : PLErr → String
  | .valueNotSingleQubit className =>
      "The target operation must be a single-qubit operation, instead got "
        ++ className ++ "."
  | .valueNotRealOffDiag u =>
      "Target operation's matrix must have real off-diagonal, but it is " ++ u.render
  | .valueRootNotConverged u =>
      "Unable to compute A matrix for U matrix " ++ u.render
  | .assertNotSU2 a =>
      "A matrix is not SU(2): " ++ a.render

/-- Tolerance test for real scalars: `isclose(a, b, atol, rtol)` of
numpy / `qml.math`, which holds when `|a - b| <= atol + rtol * |b|`. -/
abbrev isclose (a b atol rtol : ℚ) : Prop := |a - b| ≤ atol + rtol * |b|

/-- Absolute tolerance `1e-8`, numpy's default `atol` and the explicit
tolerance of the outer rotation-angle tests. -/
def atol8 : ℚ := 1 / 100000000

/-- Absolute tolerance `1e-6`, the explicit tolerance of the middle
Z-rotation test. -/
def atol6 : ℚ := 1 / 1000000

/-- Relative tolerance `1e-5`, numpy's default `rtol`. -/
def rtol5 : ℚ := 1 / 100000

/-- Tolerance test `np.isclose(z, 1)` for a complex scalar against 1, with
numpy's default tolerances, phrased on the squared modulus to stay inside
rational arithmetic. -/
abbrev iscloseDet1 (z : Cplx) : Prop := Cplx.normSq (z - 1) ≤ (atol8 + rtol5) ^ 2

/-- Transcription of `_bisect_compute_a`.  The external solver is a
parameter; the source invokes it on the closure `optfunc` with initial
guess `[1, 0, 0, 0]`, raises `ValueError` when it reports non-convergence,
raises `AssertionError` when the determinant of the assembled matrix is not
close to 1, and returns the assembled matrix otherwise. -/
def _bisect_compute_a (root : RootSolver) (u : M2) : Except PLErr M2 :=
  let sol := root (optfunc u) (1, 0, 0, 0)
  if !sol.success then
    .error (.valueRootNotConverged u)
  else
    let a := _param_su2 sol.x.1 sol.x.2.1 sol.x.2.2.1 sol.x.2.2.2
    if ¬ iscloseDet1 a.det then
      .error (.assertNotSU2 a)
    else
      .ok a

/-- Elementary operation emitted by the decomposers: Z and Y rotations on
one wire, a multiply-controlled NOT with optional work wires, an arbitrary
single-qubit unitary, and its adjoint. -/
inductive Op where
  | RZ (angle : ℚ) (wire : ℕ)
  | RY (angle : ℚ) (wire : ℕ)
  | MCX (controls : List ℕ) (target : ℕ) (work : List ℕ)
  | QubitUnitary (m : M2) (wire : ℕ)
  | AdjointUnitary (m : M2) (wire : ℕ)
deriving DecidableEq

/-- Target operation handed to a decomposer: its class name (used in error
messages), the wires it acts on, its ZYZ Euler angles `(phi, theta, omega)`
— as returned by `single_qubit_rot_angles` or, for operations that do not
implement it, by the external Euler-angle fallback the source invokes with
queuing suppressed — and its dense matrix. -/
structure Operation where
  name : String
  wires : List ℕ
  rot_angles : ℚ × ℚ × ℚ
  matrix : M2

/-- Operation list built by the body of `ctrl_decomp_zyz` (its lines after
angle extraction): each rotation is emitted only when its angle is not
within tolerance of zero, the middle multiply-controlled NOT of the
`theta` block collapses to a bare multiply-controlled NOT when `theta/2` is
negligible, and the second multiply-controlled NOT is unconditional. -/
def zyz_decomp_ops (phi theta omega : ℚ) (control_wires : List ℕ) (t : ℕ) : List Op :=
  (if isclose phi 0 atol8 0 then [] else [Op.RZ phi t])
    ++ (if isclose (theta / 2) 0 atol8 0 then
          [Op.MCX control_wires t []]
        else
          [Op.RY (theta / 2) t, Op.MCX control_wires t [], Op.RY (-(theta / 2)) t])
    ++ (if isclose (-(phi + omega) / 2) 0 atol6 0 then []
        else [Op.RZ (-(phi + omega) / 2) t])
    ++ [Op.MCX control_wires t []]
    ++ (if isclose ((omega - phi) / 2) 0 atol8 0 then []
        else [Op.RZ ((omega - phi) / 2) t])

/-- Transcription of `ctrl_decomp_zyz`: reject operations that do not act
on exactly one wire, otherwise emit the ZYZ decomposition of the controlled
operation. -/
def ctrl_decomp_zyz (target_operation : Operation) (control_wires : List ℕ) :
    Except PLErr (List Op) :=
  match target_operation.wires with
  | [t] =>
      .ok (zyz_decomp_ops target_operation.rot_angles.1 target_operation.rot_angles.2.1
        target_operation.rot_angles.2.2 control_wires t)
  | _ => .error (.valueNotSingleQubit target_operation.name)

/-- Transcription of `ctrl_decomp_bisect_od`.  The SU(2) global-phase
normalizer `_convert_to_su2` (imported from outside the module) and the
root solver are parameters.  The normalized matrix must have an
off-diagonal whose imaginary parts are within numpy's default tolerance of
zero; the control wires are split at `mid = count / 2` and the fixed
8-operation template is emitted. -/
def ctrl_decomp_bisect_od (convert_to_su2 : M2 → M2) (root : RootSolver)
    (target_operation : Operation) (control_wires : List ℕ) :
    Except PLErr (List Op) :=
  match target_operation.wires with
  | [t] =>
      let u := convert_to_su2 target_operation.matrix
      if ¬ (isclose u.c.im 0 atol8 rtol5 ∧ isclose u.b.im 0 atol8 rtol5) then
        .error (.valueNotRealOffDiag u)
      else
        match _bisect_compute_a root u with
        | .error e => .error e
        | .ok a =>
            let mid := control_wires.length / 2
            let lk := control_wires.take mid
            let rk := control_wires.drop mid
            let op_mcx1 := Op.MCX lk t rk
            let op_mcx2 := Op.MCX rk t lk
            let op_a := Op.QubitUnitary a t
            let op_at := Op.AdjointUnitary a t
            .ok [op_mcx1, op_a, op_mcx2, op_at, op_mcx1, op_a, op_mcx2, op_at]
  | _ => .error (.valueNotSingleQubit target_operation.name)

/-- Matrix of the gate `RZ(a)`, written through the value `w` standing for
`exp(i*a/2)`: `diag(conj w, w)`. -/
def rzM (w : Cplx) : M2 := ⟨conj w, 0, 0, w⟩

/-- Matrix of the gate `RY(a)`, written through the value `w` standing for
`exp(i*a/2)`: the real rotation by the half angle. -/
def ryM (w : Cplx) : M2 := ⟨⟨w.re, 0⟩, ⟨-w.im, 0⟩, ⟨w.im, 0⟩, ⟨w.re, 0⟩⟩

/-- Block action of one elementary operation on the target qubit, given the
valuation `val` of rotation angles and the control-wire bit pattern `pat`.
A multiply-controlled NOT acts by Pauli X exactly when all its controls are
active (its work wires are scratch and act as the identity); rotations and
unitaries act on the target unconditionally. -/
def opBlock (val : ℚ → Cplx) (pat : ℕ → Bool) : Op → M2
  | .RZ a _ => rzM (val a)
  | .RY a _ => ryM (val a)
  | .MCX cs _ _ => if cs.all pat then sx else 1
  | .QubitUnitary m _ => m
  | .AdjointUnitary m _ => m.adjoint

/-- Block of the matrix of an operation sequence applied in order: the
product of the blocks, rightmost factor first. -/
def seqBlock (val : ℚ → Cplx) (pat : ℕ → Bool) (ops : List Op) : M2 :=
  ops.foldl (fun acc op => opBlock val pat op * acc) 1

/-- Block of the exact controlled version of the single-qubit unitary `u`:
`u` itself when every control wire is active, the identity otherwise. -/
def ctrlBlock (u : M2) (cs : List ℕ) (pat : ℕ → Bool) : M2 :=
  if cs.all pat then u else 1

/-- Recognizer of multiply-controlled NOT operations. -/
def isMCXop : Op → Bool
  | .MCX _ _ _ => true
  | _ => false

/-! ## Theorems -/

/-- Case analysis of `_bisect_compute_a`: exactly one of the three outcomes
occurs, decided by the solver's success flag and the determinant check. -/
theorem bisect_compute_a_cases (root : RootSolver) (u : M2) (sol : RootResult)
    (hsol : root (optfunc u) (1, 0, 0, 0) = sol) :
    (sol.success = false ∧
      _bisect_compute_a root u = .error (.valueRootNotConverged u)) ∨
    (sol.success = true ∧
      ¬ iscloseDet1 (_param_su2 sol.x.1 sol.x.2.1 sol.x.2.2.1 sol.x.2.2.2).det ∧
      _bisect_compute_a root u =
        .error (.assertNotSU2 (_param_su2 sol.x.1 sol.x.2.1 sol.x.2.2.1 sol.x.2.2.2))) ∨
    (sol.success = true ∧
      iscloseDet1 (_param_su2 sol.x.1 sol.x.2.1 sol.x.2.2.1 sol.x.2.2.2).det ∧
      _bisect_compute_a root u = .ok (_param_su2 sol.x.1 sol.x.2.1 sol.x.2.2.1 sol.x.2.2.2)) := by
  simp only [_bisect_compute_a]
  rw [hsol]
  split_ifs with h1 h2
  · exact Or.inl ⟨by simpa using h1, rfl⟩
  · exact Or.inr (Or.inr ⟨by simpa using h1, h2, rfl⟩)
  · exact Or.inr (Or.inl ⟨by simpa using h1, h2, rfl⟩)

/-- Claim C5: for the target with Euler angles `(0.123, 0.456, 0.789)` and
control wires `[1, 2, 3]`, `ctrl_decomp_zyz` returns exactly these seven
operations in order: `RZ(0.123)`, `RY(0.228)`, MCX, `RY(-0.228)`,
`RZ(-0.456)`, MCX, `RZ(0.333)`, each multiply-controlled NOT acting over
`[1, 2, 3]` with target wire 0, with exact angle values. -/
theorem zyz_concrete_rot :
    ctrl_decomp_zyz ⟨"Rot", [0], (123/1000, 456/1000, 789/1000), 1⟩ [1, 2, 3] =
    .ok [Op.RZ (123/1000) 0, Op.RY (228/1000) 0, Op.MCX [1, 2, 3] 0 [],
      Op.RY (-(228/1000)) 0, Op.RZ (-(456/1000)) 0, Op.MCX [1, 2, 3] 0 [],
      Op.RZ (333/1000) 0] := by
  norm_num [ctrl_decomp_zyz, zyz_decomp_ops, isclose, atol8, atol6, abs_le]

/-- Claim C3, counterexample: for an identity-like operator with all three
Euler angles zero, the returned sequence is not a single multiply-controlled
NOT (the code emits two of them). -/
theorem zyz_identity_counterexample :
    ctrl_decomp_zyz ⟨"Identity", [0], (0, 0, 0), 1⟩ [1, 2] ≠
      .ok [Op.MCX [1, 2] 0 []] := by
  norm_num [ctrl_decomp_zyz, zyz_decomp_ops, isclose, atol8, atol6, abs_le]

/-- Claim C3, amended: for an identity-like operator whose ZYZ Euler angles
are all zero, `ctrl_decomp_zyz` returns exactly two multiply-controlled NOT
operations (whose composition is the identity) and nothing else. -/
theorem zyz_identity_two_mcx (op : Operation) (cw : List ℕ) (t : ℕ)
    (hw : op.wires = [t]) (hang : op.rot_angles = (0, 0, 0)) :
    ctrl_decomp_zyz op cw = .ok [Op.MCX cw t [], Op.MCX cw t []] := by
  obtain ⟨nm, ws, ang, m⟩ := op
  simp only at hw hang
  subst hw
  subst hang
  norm_num [ctrl_decomp_zyz, zyz_decomp_ops, isclose, atol8, atol6, abs_le]

/-- Witness for the amended claim C3, at a concrete identity-like operator
with control wires `[1, 2]`. -/
theorem zyz_identity_two_mcx_witness :
    ctrl_decomp_zyz ⟨"Identity", [0], (0, 0, 0), 1⟩ [1, 2] =
      .ok [Op.MCX [1, 2] 0 [], Op.MCX [1, 2] 0 []] :=
  zyz_identity_two_mcx ⟨"Identity", [0], (0, 0, 0), 1⟩ [1, 2] 0 rfl rfl

/-- Claim C6: for every valid single-qubit target and every control-wire
list, `ctrl_decomp_zyz` returns an ordered sequence of between 2 and 7
operations and raises no error beyond the single-qubit validation. -/
theorem zyz_length_bounds (op : Operation) (cw : List ℕ) (t : ℕ) (hw : op.wires = [t]) :
    ∃ ops, ctrl_decomp_zyz op cw = .ok ops ∧ 2 ≤ ops.length ∧ ops.length ≤ 7 := by
  obtain ⟨nm, ws, ang, m⟩ := op
  simp only at hw
  subst hw
  refine ⟨_, rfl, ?_⟩
  simp only [zyz_decomp_ops, List.length_append]
  split_ifs <;> simp

/-- Witness for claim C6, at a concrete rotation target with one control. -/
theorem zyz_length_bounds_witness :
    ∃ ops, ctrl_decomp_zyz ⟨"RX", [0], (1/2, 1/2, 1/2), 1⟩ [1] = .ok ops ∧
      2 ≤ ops.length ∧ ops.length ≤ 7 :=
  zyz_length_bounds ⟨"RX", [0], (1/2, 1/2, 1/2), 1⟩ [1] 0 rfl

/-- Claim C7: both decomposers reject a target that does not act on exactly
one wire with the `ValueError` that names the operator's class, whose
message contains the phrase "single-qubit operation" followed by the class
name. -/
theorem ctrl_decomp_single_qubit_error (convert_to_su2 : M2 → M2) (root : RootSolver)
    (op : Operation) (cw1 cw2 : List ℕ) (h : op.wires.length ≠ 1) :
    ctrl_decomp_zyz op cw1 = .error (.valueNotSingleQubit op.name) ∧
    ctrl_decomp_bisect_od convert_to_su2 root op cw2 = .error (.valueNotSingleQubit op.name) ∧
    (PLErr.valueNotSingleQubit op.name).message =
      "The target operation must be a " ++ "single-qubit operation" ++
        ", instead got " ++ op.name ++ "." := by
  obtain ⟨nm, ws, ang, m⟩ := op
  simp only at h ⊢
  match ws, h with
  | [], _ => exact ⟨rfl, rfl, rfl⟩
  | [t], h => simp at h
  | t1 :: t2 :: rest, _ => exact ⟨rfl, rfl, rfl⟩

/-- Witness for claim C7, at a concrete two-qubit operation. -/
theorem ctrl_decomp_single_qubit_error_witness :
    ctrl_decomp_zyz ⟨"CNOT", [0, 1], (0, 0, 0), 1⟩ [2] =
      .error (.valueNotSingleQubit "CNOT") ∧
    ctrl_decomp_bisect_od (fun m => m) (fun _ _ => ⟨true, (1, 0, 0, 0)⟩)
        ⟨"CNOT", [0, 1], (0, 0, 0), 1⟩ [2] = .error (.valueNotSingleQubit "CNOT") ∧
    (PLErr.valueNotSingleQubit "CNOT").message =
      "The target operation must be a " ++ "single-qubit operation" ++
        ", instead got " ++ "CNOT" ++ "." :=
  ctrl_decomp_single_qubit_error (fun m => m) (fun _ _ => ⟨true, (1, 0, 0, 0)⟩)
    ⟨"CNOT", [0, 1], (0, 0, 0), 1⟩ [2] [2] (by norm_num)

/-- Claim C8: `_bisect_compute_a` raises the convergence `ValueError`, whose
message carries the target matrix, exactly when the solver reports
non-convergence; raises the `AssertionError`, whose message carries the
assembled matrix, exactly when the determinant is not within tolerance of
1; and otherwise returns the assembled matrix. -/
theorem bisect_compute_a_outcomes (root : RootSolver) (u : M2) (sol : RootResult)
    (hsol : root (optfunc u) (1, 0, 0, 0) = sol) :
    (_bisect_compute_a root u = .error (.valueRootNotConverged u) ↔ sol.success = false) ∧
    (_bisect_compute_a root u =
        .error (.assertNotSU2 (_param_su2 sol.x.1 sol.x.2.1 sol.x.2.2.1 sol.x.2.2.2)) ↔
      sol.success = true ∧
        ¬ iscloseDet1 (_param_su2 sol.x.1 sol.x.2.1 sol.x.2.2.1 sol.x.2.2.2).det) ∧
    (sol.success = true → iscloseDet1 (_param_su2 sol.x.1 sol.x.2.1 sol.x.2.2.1 sol.x.2.2.2).det →
      _bisect_compute_a root u = .ok (_param_su2 sol.x.1 sol.x.2.1 sol.x.2.2.1 sol.x.2.2.2)) ∧
    (∃ s, (PLErr.valueRootNotConverged u).message = s ++ u.render) ∧
    (∃ s, (PLErr.assertNotSU2 (_param_su2 sol.x.1 sol.x.2.1 sol.x.2.2.1 sol.x.2.2.2)).message =
      s ++ (_param_su2 sol.x.1 sol.x.2.1 sol.x.2.2.1 sol.x.2.2.2).render) := by
  refine ⟨?_, ?_, ?_, ⟨_, rfl⟩, ⟨_, rfl⟩⟩ <;>
    · simp only [_bisect_compute_a, hsol]
      by_cases hs : sol.success <;>
        by_cases hd : iscloseDet1 (_param_su2 sol.x.1 sol.x.2.1 sol.x.2.2.1 sol.x.2.2.2).det <;>
        simp [hs, hd]

/-- Witness for claim C8, with a solver that reports non-convergence on the
identity target. -/
theorem bisect_compute_a_outcomes_witness :
    ((_bisect_compute_a (fun _ _ => ⟨false, (1, 0, 0, 0)⟩) 1 =
        .error (.valueRootNotConverged 1)) ↔ (false : Bool) = false) ∧
    ((_bisect_compute_a (fun _ _ => ⟨false, (1, 0, 0, 0)⟩) 1 =
        .error (.assertNotSU2 (_param_su2 1 0 0 0))) ↔
      (false : Bool) = true ∧ ¬ iscloseDet1 (_param_su2 1 0 0 0).det) ∧
    ((false : Bool) = true → iscloseDet1 (_param_su2 1 0 0 0).det →
      _bisect_compute_a (fun _ _ => ⟨false, (1, 0, 0, 0)⟩) 1 = .ok (_param_su2 1 0 0 0)) ∧
    (∃ s, (PLErr.valueRootNotConverged 1).message = s ++ (1 : M2).render) ∧
    (∃ s, (PLErr.assertNotSU2 (_param_su2 1 0 0 0)).message =
      s ++ (_param_su2 1 0 0 0).render) :=
  bisect_compute_a_outcomes (fun _ _ => ⟨false, (1, 0, 0, 0)⟩) 1 ⟨false, (1, 0, 0, 0)⟩ rfl

/-- Claim C9: after normalizing the target's matrix through the external
SU(2) normalizer, `ctrl_decomp_bisect_od` raises the real-off-diagonal
`ValueError` — whose message carries the normalized matrix — if and only if
an off-diagonal entry of the normalized matrix has imaginary part not
within tolerance `1e-8` of zero; the test reads the normalized matrix, not
the original one. -/
theorem bisect_od_offdiag_check (convert_to_su2 : M2 → M2) (root : RootSolver)
    (op : Operation) (cw : List ℕ) (t : ℕ) (hw : op.wires = [t]) :
    (ctrl_decomp_bisect_od convert_to_su2 root op cw =
        .error (.valueNotRealOffDiag (convert_to_su2 op.matrix)) ↔
      ¬ (isclose (convert_to_su2 op.matrix).c.im 0 atol8 rtol5 ∧
         isclose (convert_to_su2 op.matrix).b.im 0 atol8 rtol5)) ∧
    ∃ s, (PLErr.valueNotRealOffDiag (convert_to_su2 op.matrix)).message =
      s ++ (convert_to_su2 op.matrix).render := by
  refine ⟨?_, ⟨_, rfl⟩⟩
  obtain ⟨nm, ws, ang, m⟩ := op
  simp only at hw ⊢
  subst hw
  by_cases hck : isclose (convert_to_su2 m).c.im 0 atol8 rtol5 ∧
      isclose (convert_to_su2 m).b.im 0 atol8 rtol5
  · refine iff_of_false ?_ (not_not_intro hck)
    simp only [ctrl_decomp_bisect_od, if_neg (not_not_intro hck)]
    rcases bisect_compute_a_cases root (convert_to_su2 m) _ rfl with
      ⟨_, hbc⟩ | ⟨_, _, hbc⟩ | ⟨_, _, hbc⟩ <;> simp [hbc]
  · refine iff_of_true ?_ hck
    simp only [ctrl_decomp_bisect_od, if_pos hck]

/-- Witness for claim C9, with a normalizer producing a matrix whose lower
off-diagonal entry has imaginary part 1. -/
theorem bisect_od_offdiag_check_witness :
    ((ctrl_decomp_bisect_od (fun _ => ⟨1, ⟨0, 0⟩, ⟨0, 1⟩, 1⟩) (fun _ _ => ⟨true, (1, 0, 0, 0)⟩)
        ⟨"U", [0], (0, 0, 0), 1⟩ [1] =
        .error (.valueNotRealOffDiag ⟨1, ⟨0, 0⟩, ⟨0, 1⟩, 1⟩)) ↔
      ¬ (isclose (1 : ℚ) 0 atol8 rtol5 ∧ isclose (0 : ℚ) 0 atol8 rtol5)) ∧
    (∃ s, (PLErr.valueNotRealOffDiag (⟨1, ⟨0, 0⟩, ⟨0, 1⟩, 1⟩ : M2)).message =
      s ++ (⟨1, ⟨0, 0⟩, ⟨0, 1⟩, 1⟩ : M2).render) :=
  bisect_od_offdiag_check (fun _ => ⟨1, ⟨0, 0⟩, ⟨0, 1⟩, 1⟩)
    (fun _ _ => ⟨true, (1, 0, 0, 0)⟩) ⟨"U", [0], (0, 0, 0), 1⟩ [1] 0 rfl

/-- Claim C4: on a valid single-qubit target whose normalized matrix passes
the real-off-diagonal check and whose factor is solved, the bisection
decomposer returns exactly the 8-operation template
`MCX(L, work R), A, MCX(R, work L), adjoint A` twice, where the control
list is split at `mid = count / 2` into `L` and `R`, independently of the
number of control wires. -/
theorem bisect_od_eight_ops (convert_to_su2 : M2 → M2) (root : RootSolver)
    (op : Operation) (cw : List ℕ) (t : ℕ) (sol : RootResult) (hw : op.wires = [t])
    (hsol : root (optfunc (convert_to_su2 op.matrix)) (1, 0, 0, 0) = sol)
    (hod : isclose (convert_to_su2 op.matrix).c.im 0 atol8 rtol5 ∧
      isclose (convert_to_su2 op.matrix).b.im 0 atol8 rtol5)
    (hs : sol.success = true)
    (hdet : iscloseDet1 (_param_su2 sol.x.1 sol.x.2.1 sol.x.2.2.1 sol.x.2.2.2).det) :
    ctrl_decomp_bisect_od convert_to_su2 root op cw =
      .ok [Op.MCX (cw.take (cw.length / 2)) t (cw.drop (cw.length / 2)),
        Op.QubitUnitary (_param_su2 sol.x.1 sol.x.2.1 sol.x.2.2.1 sol.x.2.2.2) t,
        Op.MCX (cw.drop (cw.length / 2)) t (cw.take (cw.length / 2)),
        Op.AdjointUnitary (_param_su2 sol.x.1 sol.x.2.1 sol.x.2.2.1 sol.x.2.2.2) t,
        Op.MCX (cw.take (cw.length / 2)) t (cw.drop (cw.length / 2)),
        Op.QubitUnitary (_param_su2 sol.x.1 sol.x.2.1 sol.x.2.2.1 sol.x.2.2.2) t,
        Op.MCX (cw.drop (cw.length / 2)) t (cw.take (cw.length / 2)),
        Op.AdjointUnitary (_param_su2 sol.x.1 sol.x.2.1 sol.x.2.2.1 sol.x.2.2.2) t] ∧
    ([Op.MCX (cw.take (cw.length / 2)) t (cw.drop (cw.length / 2)),
        Op.QubitUnitary (_param_su2 sol.x.1 sol.x.2.1 sol.x.2.2.1 sol.x.2.2.2) t,
        Op.MCX (cw.drop (cw.length / 2)) t (cw.take (cw.length / 2)),
        Op.AdjointUnitary (_param_su2 sol.x.1 sol.x.2.1 sol.x.2.2.1 sol.x.2.2.2) t,
        Op.MCX (cw.take (cw.length / 2)) t (cw.drop (cw.length / 2)),
        Op.QubitUnitary (_param_su2 sol.x.1 sol.x.2.1 sol.x.2.2.1 sol.x.2.2.2) t,
        Op.MCX (cw.drop (cw.length / 2)) t (cw.take (cw.length / 2)),
        Op.AdjointUnitary (_param_su2 sol.x.1 sol.x.2.1 sol.x.2.2.1 sol.x.2.2.2) t] : List Op).length
      = 8 := by
  refine ⟨?_, rfl⟩
  obtain ⟨nm, ws, ang, m⟩ := op
  simp only at hw hsol hod ⊢
  subst hw
  rcases bisect_compute_a_cases root (convert_to_su2 m) sol hsol with
    ⟨hf, _⟩ | ⟨_, hnd, _⟩ | ⟨_, _, hbc⟩
  · rw [hs] at hf
    cases hf
  · exact absurd hdet hnd
  · simp only [ctrl_decomp_bisect_od, if_neg (not_not_intro hod), hbc]

/-- Witness for claim C4, at a concrete identity-like target with three
control wires. -/
theorem bisect_od_eight_ops_witness :
    ctrl_decomp_bisect_od (fun _ => 1) (fun _ _ => ⟨true, (1, 0, 0, 0)⟩)
        ⟨"Z", [0], (0, 0, 0), 1⟩ [1, 2, 3] =
      .ok [Op.MCX [1] 0 [2, 3], Op.QubitUnitary (_param_su2 1 0 0 0) 0,
        Op.MCX [2, 3] 0 [1], Op.AdjointUnitary (_param_su2 1 0 0 0) 0,
        Op.MCX [1] 0 [2, 3], Op.QubitUnitary (_param_su2 1 0 0 0) 0,
        Op.MCX [2, 3] 0 [1], Op.AdjointUnitary (_param_su2 1 0 0 0) 0] ∧
    ([Op.MCX [1] 0 [2, 3], Op.QubitUnitary (_param_su2 1 0 0 0) 0,
        Op.MCX [2, 3] 0 [1], Op.AdjointUnitary (_param_su2 1 0 0 0) 0,
        Op.MCX [1] 0 [2, 3], Op.QubitUnitary (_param_su2 1 0 0 0) 0,
        Op.MCX [2, 3] 0 [1], Op.AdjointUnitary (_param_su2 1 0 0 0) 0] : List Op).length = 8 :=
  bisect_od_eight_ops (fun _ => 1) (fun _ _ => ⟨true, (1, 0, 0, 0)⟩)
    ⟨"Z", [0], (0, 0, 0), 1⟩ [1, 2, 3] 0 ⟨true, (1, 0, 0, 0)⟩ rfl rfl
    (by norm_num [isclose, atol8]) rfl
    (by norm_num [iscloseDet1, _param_su2, M2.det, Cplx.normSq, atol8, rtol5])

/-- Claim C10: every successful run of `ctrl_decomp_zyz` yields a sequence
holding exactly two multiply-controlled NOT operations, each over the
control wires with the target wire and no work wires, and every other
operation is an RZ or RY rotation on the target wire alone. -/
theorem zyz_structure_invariant (op : Operation) (cw : List ℕ) (ops : List Op)
    (h : ctrl_decomp_zyz op cw = .ok ops) :
    ∃ t, op.wires = [t] ∧ ops.countP isMCXop = 2 ∧
      ∀ o ∈ ops, o = Op.MCX cw t [] ∨ (∃ a, o = Op.RZ a t) ∨ (∃ a, o = Op.RY a t) := by
  obtain ⟨nm, ws, ang, m⟩ := op
  match ws with
  | [] => simp [ctrl_decomp_zyz] at h
  | t1 :: t2 :: rest => simp [ctrl_decomp_zyz] at h
  | [t] =>
    refine ⟨t, rfl, ?_⟩
    simp only [ctrl_decomp_zyz, Except.ok.injEq] at h
    subst h
    unfold zyz_decomp_ops
    split_ifs <;> refine ⟨by simp [isMCXop, List.countP_cons], ?_⟩ <;> intro o ho <;>
      simp only [List.mem_append, List.mem_singleton, List.mem_cons,
        List.not_mem_nil, or_false, false_or] at ho <;>
      aesop

/-- Witness for claim C10, at the concrete rotation target of claim C5. -/
theorem zyz_structure_invariant_witness :
    ∃ t, (⟨"Rot", [0], (123/1000, 456/1000, 789/1000), 1⟩ : Operation).wires = [t] ∧
      (List.countP isMCXop [Op.RZ (123/1000) 0, Op.RY (228/1000) 0, Op.MCX [1, 2, 3] 0 [],
        Op.RY (-(228/1000)) 0, Op.RZ (-(456/1000)) 0, Op.MCX [1, 2, 3] 0 [],
        Op.RZ (333/1000) 0]) = 2 ∧
      ∀ o ∈ [Op.RZ (123/1000) 0, Op.RY (228/1000) 0, Op.MCX [1, 2, 3] 0 [],
        Op.RY (-(228/1000)) 0, Op.RZ (-(456/1000)) 0, Op.MCX [1, 2, 3] 0 [],
        Op.RZ (333/1000) 0],
        o = Op.MCX [1, 2, 3] t [] ∨ (∃ a, o = Op.RZ a t) ∨ (∃ a, o = Op.RY a t) :=
  zyz_structure_invariant ⟨"Rot", [0], (123/1000, 456/1000, 789/1000), 1⟩ [1, 2, 3]
    [Op.RZ (123/1000) 0, Op.RY (228/1000) 0, Op.MCX [1, 2, 3] 0 [],
      Op.RY (-(228/1000)) 0, Op.RZ (-(456/1000)) 0, Op.MCX [1, 2, 3] 0 [],
      Op.RZ (333/1000) 0]
    (by norm_num [ctrl_decomp_zyz, zyz_decomp_ops, isclose, atol8, atol6, abs_le])

/-- Claim C2, counterexample: the root-finding objective is not a 2-vector
built from the (0,0) entry alone — at the identity target and the identity
starting point it has length 4, and it changes when only the (0,1) entry of
the target changes. -/
theorem optfunc_counterexample :
    (optfunc 1 (1, 0, 0, 0)).length = 4 ∧
    optfunc ⟨1, ⟨1, 0⟩, 0, 1⟩ (1, 0, 0, 0) ≠ optfunc 1 (1, 0, 0, 0) := by
  constructor
  · rfl
  · norm_num [optfunc, expect_u, _flatreals, row0, _param_su2, _matrix_adjoint,
      M2.adjoint, sx, Cplx.conj, M2.mul]

/-- Claim C2, amended: the objective flattens the real parts then the
imaginary parts of the first row of `expect_u - u` into a 4-vector, it
vanishes exactly when the first rows of the reconstruction and of `u`
agree, and `_bisect_compute_a` consults the solver only through its value
at the objective and the starting point `(1, 0, 0, 0)`. -/
theorem optfunc_row_objective (u : M2) (x : ℚ × ℚ × ℚ × ℚ) (root1 root2 : RootSolver) :
    optfunc u x = [(expect_u x - u).a.re, (expect_u x - u).b.re,
      (expect_u x - u).a.im, (expect_u x - u).b.im] ∧
    (optfunc u x = [0, 0, 0, 0] ↔ (expect_u x).a = u.a ∧ (expect_u x).b = u.b) ∧
    (root1 (optfunc u) (1, 0, 0, 0) = root2 (optfunc u) (1, 0, 0, 0) →
      _bisect_compute_a root1 u = _bisect_compute_a root2 u) := by
  refine ⟨rfl, ?_, ?_⟩
  · simp only [optfunc, _flatreals, row0, List.map_cons, List.map_nil, List.cons_append,
      List.nil_append, List.cons.injEq, and_true, Cplx.ext_iff2]
    constructor
    · rintro ⟨h1, h2, h3, h4⟩
      constructor <;> constructor <;> simp_all <;> linarith
    · rintro ⟨⟨h1, h2⟩, h3, h4⟩
      simp_all
  · intro h
    simp only [_bisect_compute_a, h]

section BlockToolkit

variable (val : ℚ → Cplx) (pat : ℕ → Bool)

theorem seqBlock_foldl (ops : List Op) (init : M2) :
    ops.foldl (fun acc op => opBlock val pat op * acc) init = seqBlock val pat ops * init := by
  induction ops generalizing init with
  | nil => simp [seqBlock]
  | cons o l ih =>
    simp only [List.foldl_cons, seqBlock]
    rw [ih (opBlock val pat o * init), ih (opBlock val pat o * 1)]
    rw [mul_one, mul_assoc]

theorem seqBlock_nil : seqBlock val pat [] = 1 := rfl

theorem seqBlock_cons (o : Op) (l : List Op) :
    seqBlock val pat (o :: l) = seqBlock val pat l * opBlock val pat o := by
  show List.foldl _ _ _ = _
  rw [List.foldl_cons, seqBlock_foldl, mul_one]

theorem seqBlock_append (l1 l2 : List Op) :
    seqBlock val pat (l1 ++ l2) = seqBlock val pat l2 * seqBlock val pat l1 := by
  show List.foldl _ _ _ = _
  rw [List.foldl_append, seqBlock_foldl]
  rfl

theorem seqBlock_singleton (o : Op) :
    seqBlock val pat [o] = opBlock val pat o := by
  rw [seqBlock_cons, seqBlock_nil, one_mul]

theorem rzM_one : rzM 1 = 1 := by
  apply M2.ext4 <;> simp [rzM]

theorem ryM_one : ryM 1 = 1 := by
  apply M2.ext4 <;> apply Cplx.ext2 <;> simp [ryM]

theorem rz_mul (w v : Cplx) : rzM w * rzM v = rzM (w * v) := by
  apply M2.ext4 <;> simp [rzM, Cplx.conj_mul_conj]

theorem ry_mul (w v : Cplx) : ryM w * ryM v = ryM (w * v) := by
  apply M2.ext4 <;> apply Cplx.ext2 <;> simp [ryM] <;> ring

theorem sx_sx : sx * sx = 1 := by
  apply M2.ext4 <;> simp [sx]

theorem x_rz_swap (w : Cplx) : sx * rzM w = rzM (conj w) * sx := by
  apply M2.ext4 <;> simp [rzM, sx]

theorem x_ry_swap (w : Cplx) : sx * ryM w = ryM (conj w) * sx := by
  apply M2.ext4 <;> apply Cplx.ext2 <;> simp [ryM, sx]

theorem rz_rz_M (w v : Cplx) (M : M2) : rzM w * (rzM v * M) = rzM (w * v) * M := by
  rw [← mul_assoc, rz_mul]

theorem ry_ry_M (w v : Cplx) (M : M2) : ryM w * (ryM v * M) = ryM (w * v) * M := by
  rw [← mul_assoc, ry_mul]

theorem x_rz_M (w : Cplx) (M : M2) : sx * (rzM w * M) = rzM (conj w) * (sx * M) := by
  rw [← mul_assoc, x_rz_swap, mul_assoc]

theorem x_ry_M (w : Cplx) (M : M2) : sx * (ryM w * M) = ryM (conj w) * (sx * M) := by
  rw [← mul_assoc, x_ry_swap, mul_assoc]

theorem x_x_M (M : M2) : sx * (sx * M) = M := by
  rw [← mul_assoc, sx_sx, one_mul]

end BlockToolkit

section AngleValuation

variable {val : ℚ → Cplx}

theorem val_zero (hchar : ∀ a b, val (a + b) = val a * val b)
    (hunit : ∀ a, val a * conj (val a) = 1) : val 0 = 1 := by
  have h0 : val 0 = val 0 * val 0 := by
    have := hchar 0 0
    simpa using this
  calc val 0 = val 0 * 1 := (mul_one _).symm
    _ = val 0 * (val 0 * conj (val 0)) := by rw [hunit 0]
    _ = (val 0 * val 0) * conj (val 0) := by ring
    _ = val 0 * conj (val 0) := by rw [← h0]
    _ = 1 := hunit 0

theorem val_conj (hchar : ∀ a b, val (a + b) = val a * val b)
    (hunit : ∀ a, val a * conj (val a) = 1) (x : ℚ) : conj (val x) = val (-x) := by
  have hx : val x * val (-x) = 1 := by
    rw [← hchar x (-x)]
    simpa using val_zero hchar hunit
  calc conj (val x) = conj (val x) * (val x * val (-x)) := by rw [hx, mul_one]
    _ = (val x * conj (val x)) * val (-x) := by ring
    _ = val (-x) := by rw [hunit x, one_mul]

end AngleValuation

section ZyzBlocks

variable {val : ℚ → Cplx} {pat : ℕ → Bool}

theorem opBlock_rz (a : ℚ) (w : ℕ) : opBlock val pat (Op.RZ a w) = rzM (val a) := rfl

theorem opBlock_ry (a : ℚ) (w : ℕ) : opBlock val pat (Op.RY a w) = ryM (val a) := rfl

theorem opBlock_mcx (cs : List ℕ) (w : ℕ) (wk : List ℕ) :
    opBlock val pat (Op.MCX cs w wk) = if cs.all pat then sx else 1 := rfl

theorem opBlock_qu (m : M2) (w : ℕ) : opBlock val pat (Op.QubitUnitary m w) = m := rfl

theorem opBlock_adj (m : M2) (w : ℕ) :
    opBlock val pat (Op.AdjointUnitary m w) = m.adjoint := rfl

theorem zyz_chunk1 (hchar : ∀ a b, val (a + b) = val a * val b)
    (hunit : ∀ a, val a * conj (val a) = 1) (phi : ℚ) (t : ℕ)
    (h1 : isclose phi 0 atol8 0 → phi = 0) :
    seqBlock val pat (if isclose phi 0 atol8 0 then [] else [Op.RZ phi t]) = rzM (val phi) := by
  by_cases h : isclose phi 0 atol8 0
  · rw [if_pos h, seqBlock_nil, h1 h, val_zero hchar hunit, rzM_one]
  · rw [if_neg h, seqBlock_singleton, opBlock_rz]

theorem zyz_chunk2 (hchar : ∀ a b, val (a + b) = val a * val b)
    (hunit : ∀ a, val a * conj (val a) = 1) (theta : ℚ) (cw : List ℕ) (t : ℕ)
    (h2 : isclose (theta / 2) 0 atol8 0 → theta = 0) :
    seqBlock val pat (if isclose (theta / 2) 0 atol8 0 then
        [Op.MCX cw t []]
      else
        [Op.RY (theta / 2) t, Op.MCX cw t [], Op.RY (-(theta / 2)) t]) =
      ryM (val (-(theta / 2))) * ((if cw.all pat then sx else 1) * ryM (val (theta / 2))) := by
  by_cases h : isclose (theta / 2) 0 atol8 0
  · rw [if_pos h, seqBlock_singleton, opBlock_mcx, show theta = 0 from h2 h]
    rw [show (-((0 : ℚ) / 2) : ℚ) = 0 from by norm_num,
      show ((0 : ℚ) / 2 : ℚ) = 0 from by norm_num]
    rw [val_zero hchar hunit, ryM_one, one_mul, mul_one]
  · rw [if_neg h, seqBlock_cons, seqBlock_cons, seqBlock_singleton, mul_assoc,
      opBlock_ry, opBlock_ry, opBlock_mcx]

theorem zyz_chunk3 (hchar : ∀ a b, val (a + b) = val a * val b)
    (hunit : ∀ a, val a * conj (val a) = 1) (phi omega : ℚ) (t : ℕ)
    (h3 : isclose (-(phi + omega) / 2) 0 atol6 0 → phi + omega = 0) :
    seqBlock val pat (if isclose (-(phi + omega) / 2) 0 atol6 0 then []
      else [Op.RZ (-(phi + omega) / 2) t]) = rzM (val (-(phi + omega) / 2)) := by
  by_cases h : isclose (-(phi + omega) / 2) 0 atol6 0
  · rw [if_pos h, seqBlock_nil, h3 h, show (-(0 : ℚ) / 2 : ℚ) = 0 from by norm_num,
      val_zero hchar hunit, rzM_one]
  · rw [if_neg h, seqBlock_singleton, opBlock_rz]

theorem zyz_chunk5 (hchar : ∀ a b, val (a + b) = val a * val b)
    (hunit : ∀ a, val a * conj (val a) = 1) (phi omega : ℚ) (t : ℕ)
    (h4 : isclose ((omega - phi) / 2) 0 atol8 0 → omega - phi = 0) :
    seqBlock val pat (if isclose ((omega - phi) / 2) 0 atol8 0 then []
      else [Op.RZ ((omega - phi) / 2) t]) = rzM (val ((omega - phi) / 2)) := by
  by_cases h : isclose ((omega - phi) / 2) 0 atol8 0
  · rw [if_pos h, seqBlock_nil]
    have h0 : (omega - phi) / 2 = 0 := by rw [h4 h]; norm_num
    rw [h0, val_zero hchar hunit, rzM_one]
  · rw [if_neg h, seqBlock_singleton, opBlock_rz]

/-- Barenco decomposition identity in block form: whatever the pattern of
active controls, the blocks of the emitted ZYZ sequence compose to the
controlled version of `RZ(omega) RY(theta) RZ(phi)`, assuming only that
the omitted angles are exactly zero. -/
theorem zyz_block (hchar : ∀ a b, val (a + b) = val a * val b)
    (hunit : ∀ a, val a * conj (val a) = 1) (phi theta omega : ℚ) (cw : List ℕ) (t : ℕ)
    (h1 : isclose phi 0 atol8 0 → phi = 0)
    (h2 : isclose (theta / 2) 0 atol8 0 → theta = 0)
    (h3 : isclose (-(phi + omega) / 2) 0 atol6 0 → phi + omega = 0)
    (h4 : isclose ((omega - phi) / 2) 0 atol8 0 → omega - phi = 0) :
    seqBlock val pat (zyz_decomp_ops phi theta omega cw t) =
      ctrlBlock (rzM (val omega) * (ryM (val theta) * rzM (val phi))) cw pat := by
  unfold zyz_decomp_ops
  rw [seqBlock_append, seqBlock_append, seqBlock_append, seqBlock_append]
  rw [zyz_chunk1 hchar hunit phi t h1, zyz_chunk2 hchar hunit theta cw t h2,
    zyz_chunk3 hchar hunit phi omega t h3, zyz_chunk5 hchar hunit phi omega t h4,
    seqBlock_singleton, opBlock_mcx]
  by_cases hp : cw.all pat
  · simp only [ctrlBlock, hp, if_true]
    simp only [mul_assoc]
    rw [x_rz_M, x_ry_M, x_x_M]
    rw [val_conj hchar hunit, val_conj hchar hunit]
    rw [show (-(-(phi + omega) / 2) : ℚ) = (phi + omega) / 2 from by ring,
      show (-(-(theta / 2)) : ℚ) = theta / 2 from by ring]
    rw [ry_ry_M, rz_rz_M, ← hchar, ← hchar]
    rw [show ((omega - phi) / 2 + (phi + omega) / 2 : ℚ) = omega from by ring,
      show ((theta / 2) + theta / 2 : ℚ) = theta from by ring]
  · simp only [ctrlBlock, hp, if_false, Bool.false_eq_true]
    simp only [mul_one, one_mul, mul_assoc]
    rw [ry_ry_M, ← hchar, show (-(theta / 2) + theta / 2 : ℚ) = 0 from by ring,
      val_zero hchar hunit, ryM_one, one_mul]
    rw [rz_rz_M, ← hchar, rz_mul, ← hchar,
      show ((omega - phi) / 2 + -(phi + omega) / 2 + phi : ℚ) = 0 from by ring,
      val_zero hchar hunit, rzM_one]

end ZyzBlocks

section BisectBlocks

theorem param_su2_norm (ar ai br bi : ℚ) (hdet : (_param_su2 ar ai br bi).det = 1) :
    ar ^ 2 + ai ^ 2 + br ^ 2 + bi ^ 2 = 1 := by
  have h := congrArg Cplx.re hdet
  simp [M2.det, _param_su2] at h
  linear_combination h

theorem param_su2_at_a (ar ai br bi : ℚ) (hdet : (_param_su2 ar ai br bi).det = 1) :
    (_param_su2 ar ai br bi).adjoint * _param_su2 ar ai br bi = 1 := by
  have hs := param_su2_norm ar ai br bi hdet
  apply M2.ext4 <;> apply Cplx.ext2 <;> simp [_param_su2, M2.adjoint, conj] <;>
    first
    | linear_combination hs
    | ring

theorem param_su2_a_at (ar ai br bi : ℚ) (hdet : (_param_su2 ar ai br bi).det = 1) :
    _param_su2 ar ai br bi * (_param_su2 ar ai br bi).adjoint = 1 := by
  have hs := param_su2_norm ar ai br bi hdet
  apply M2.ext4 <;> apply Cplx.ext2 <;> simp [_param_su2, M2.adjoint, conj] <;>
    first
    | linear_combination hs
    | ring

theorem param_su2_at_a_M (ar ai br bi : ℚ) (hdet : (_param_su2 ar ai br bi).det = 1)
    (M : M2) : (_param_su2 ar ai br bi).adjoint * (_param_su2 ar ai br bi * M) = M := by
  rw [← mul_assoc, param_su2_at_a ar ai br bi hdet, one_mul]

theorem param_su2_a_at_M (ar ai br bi : ℚ) (hdet : (_param_su2 ar ai br bi).det = 1)
    (M : M2) : _param_su2 ar ai br bi * ((_param_su2 ar ai br bi).adjoint * M) = M := by
  rw [← mul_assoc, param_su2_a_at ar ai br bi hdet, one_mul]

/-- Core identity of the bisection method: when the objective vanishes at
the solved parameters and the target is an SU(2) matrix with
conjugate-symmetric entries, the product `At X A X At X A X` equals the
target. -/
theorem bisect_active (ar ai br bi : ℚ) (u : M2)
    (hobj : optfunc u (ar, ai, br, bi) = [0, 0, 0, 0])
    (hc : u.c = -u.b) (hd : u.d = conj u.a) :
    (_param_su2 ar ai br bi).adjoint * (sx * (_param_su2 ar ai br bi * (sx *
      ((_param_su2 ar ai br bi).adjoint * (sx * (_param_su2 ar ai br bi * sx)))))) = u := by
  simp only [optfunc, expect_u, _flatreals, row0, _matrix_adjoint, List.map_cons,
    List.map_nil, List.cons_append, List.nil_append, List.cons.injEq, and_true] at hobj
  obtain ⟨h1, h2, h3, h4⟩ := hobj
  have hcre := congrArg Cplx.re hc
  have hcim := congrArg Cplx.im hc
  have hdre := congrArg Cplx.re hd
  have hdim := congrArg Cplx.im hd
  simp only [Cplx.neg_re, Cplx.neg_im, Cplx.conj_re, Cplx.conj_im] at hcre hcim hdre hdim
  apply M2.ext4 <;> apply Cplx.ext2
  · simp only [M2.mul_a, M2.mul_b, M2.mul_c, M2.mul_d] at h1 ⊢
    simp [_param_su2, M2.adjoint, conj, sx] at h1 ⊢
    linear_combination h1
  · simp only [M2.mul_a, M2.mul_b, M2.mul_c, M2.mul_d] at h3 ⊢
    simp [_param_su2, M2.adjoint, conj, sx] at h3 ⊢
    linear_combination h3
  · simp only [M2.mul_a, M2.mul_b, M2.mul_c, M2.mul_d] at h2 ⊢
    simp [_param_su2, M2.adjoint, conj, sx] at h2 ⊢
    linear_combination h2
  · simp only [M2.mul_a, M2.mul_b, M2.mul_c, M2.mul_d] at h4 ⊢
    simp [_param_su2, M2.adjoint, conj, sx] at h4 ⊢
    linear_combination h4
  · simp only [M2.mul_a, M2.mul_b, M2.mul_c, M2.mul_d] at h2 ⊢
    simp [_param_su2, M2.adjoint, conj, sx] at h2 ⊢
    linear_combination -h2 - hcre
  · simp only [M2.mul_a, M2.mul_b, M2.mul_c, M2.mul_d] at h4 ⊢
    simp [_param_su2, M2.adjoint, conj, sx] at h4 ⊢
    linear_combination -h4 - hcim
  · simp only [M2.mul_a, M2.mul_b, M2.mul_c, M2.mul_d] at h1 ⊢
    simp [_param_su2, M2.adjoint, conj, sx] at h1 ⊢
    linear_combination h1 - hdre
  · simp only [M2.mul_a, M2.mul_b, M2.mul_c, M2.mul_d] at h3 ⊢
    simp [_param_su2, M2.adjoint, conj, sx] at h3 ⊢
    linear_combination -h3 - hdim

/-- Block form of the 8-operation bisection template: it composes to the
controlled version of the target `u` for every pattern of active controls. -/
theorem bisect_block (val : ℚ → Cplx) (pat : ℕ → Bool) (ar ai br bi : ℚ) (u : M2)
    (cw : List ℕ) (t : ℕ)
    (hobj : optfunc u (ar, ai, br, bi) = [0, 0, 0, 0])
    (hc : u.c = -u.b) (hd : u.d = conj u.a)
    (hdet : (_param_su2 ar ai br bi).det = 1) :
    seqBlock val pat
      [Op.MCX (cw.take (cw.length / 2)) t (cw.drop (cw.length / 2)),
       Op.QubitUnitary (_param_su2 ar ai br bi) t,
       Op.MCX (cw.drop (cw.length / 2)) t (cw.take (cw.length / 2)),
       Op.AdjointUnitary (_param_su2 ar ai br bi) t,
       Op.MCX (cw.take (cw.length / 2)) t (cw.drop (cw.length / 2)),
       Op.QubitUnitary (_param_su2 ar ai br bi) t,
       Op.MCX (cw.drop (cw.length / 2)) t (cw.take (cw.length / 2)),
       Op.AdjointUnitary (_param_su2 ar ai br bi) t] = ctrlBlock u cw pat := by
  have hcw : cw.all pat =
      ((cw.take (cw.length / 2)).all pat && (cw.drop (cw.length / 2)).all pat) := by
    conv_lhs => rw [← List.take_append_drop (cw.length / 2) cw]
    rw [List.all_append]
  simp only [seqBlock_cons, seqBlock_nil, one_mul, opBlock_mcx, opBlock_qu, opBlock_adj]
  by_cases hl : (cw.take (cw.length / 2)).all pat <;>
    by_cases hr : (cw.drop (cw.length / 2)).all pat
  · simp only [ctrlBlock, hcw, hl, hr, Bool.and_self, if_true, if_pos]
    simp only [mul_assoc]
    exact bisect_active ar ai br bi u hobj hc hd
  · simp only [ctrlBlock, hcw, hl, hr, Bool.and_false, Bool.false_eq_true, if_true, if_false]
    simp only [mul_one, one_mul, mul_assoc]
    rw [param_su2_at_a_M ar ai br bi hdet, param_su2_at_a_M ar ai br bi hdet, sx_sx]
  · simp only [ctrlBlock, hcw, hl, hr, Bool.false_and, Bool.false_eq_true, if_true, if_false]
    simp only [mul_one, one_mul, mul_assoc]
    rw [param_su2_a_at_M ar ai br bi hdet, x_x_M, param_su2_at_a ar ai br bi hdet]
  · simp only [ctrlBlock, hcw, hl, hr, Bool.false_and, Bool.false_eq_true, if_false]
    simp only [mul_one, one_mul, mul_assoc]
    rw [param_su2_at_a_M ar ai br bi hdet, param_su2_at_a ar ai br bi hdet]

end BisectBlocks

/-- Claim C1: for every single-qubit target and every control-wire list,
the blocks of the sequence returned by `ctrl_decomp_zyz` (respectively
`ctrl_decomp_bisect_od`) compose, on each control-pattern subspace, to the
exact controlled version of the target's SU(2) representative
`RZ(omega) RY(theta) RZ(phi)` (respectively of the normalized matrix).
Rotation angles are read through any valuation `val` satisfying the group
laws of `a ↦ exp(i a / 2)`; the SU(2) representative realizes the
documented global-phase caveat for targets outside SU(2).  The external
solver's output is constrained exactly as the source constrains it in
idealized arithmetic: its residual objective vanishes and the determinant
check passes exactly. -/
theorem ctrl_decomp_matrix_reconstruction :
    (∀ (val : ℚ → Cplx) (pat : ℕ → Bool) (op : Operation) (cw : List ℕ) (t : ℕ)
      (ops : List Op),
      (∀ a b, val (a + b) = val a * val b) →
      (∀ a, val a * conj (val a) = 1) →
      op.wires = [t] →
      (isclose op.rot_angles.1 0 atol8 0 → op.rot_angles.1 = 0) →
      (isclose (op.rot_angles.2.1 / 2) 0 atol8 0 → op.rot_angles.2.1 = 0) →
      (isclose (-(op.rot_angles.1 + op.rot_angles.2.2) / 2) 0 atol6 0 →
        op.rot_angles.1 + op.rot_angles.2.2 = 0) →
      (isclose ((op.rot_angles.2.2 - op.rot_angles.1) / 2) 0 atol8 0 →
        op.rot_angles.2.2 - op.rot_angles.1 = 0) →
      ctrl_decomp_zyz op cw = .ok ops →
      seqBlock val pat ops =
        ctrlBlock (rzM (val op.rot_angles.2.2) *
          (ryM (val op.rot_angles.2.1) * rzM (val op.rot_angles.1))) cw pat) ∧
    (∀ (val : ℚ → Cplx) (pat : ℕ → Bool) (convert_to_su2 : M2 → M2) (root : RootSolver)
      (op : Operation) (cw : List ℕ) (t : ℕ) (sol : RootResult) (ar ai br bi : ℚ)
      (ops : List Op),
      op.wires = [t] →
      root (optfunc (convert_to_su2 op.matrix)) (1, 0, 0, 0) = sol →
      sol.x = (ar, ai, br, bi) →
      (convert_to_su2 op.matrix).c = -(convert_to_su2 op.matrix).b →
      (convert_to_su2 op.matrix).d = conj (convert_to_su2 op.matrix).a →
      optfunc (convert_to_su2 op.matrix) (ar, ai, br, bi) = [0, 0, 0, 0] →
      (_param_su2 ar ai br bi).det = 1 →
      ctrl_decomp_bisect_od convert_to_su2 root op cw = .ok ops →
      seqBlock val pat ops = ctrlBlock (convert_to_su2 op.matrix) cw pat) := by
  constructor
  · intro val pat op cw t ops hchar hunit hw h1 h2 h3 h4 hok
    obtain ⟨nm, ws, ang, m⟩ := op
    obtain ⟨phi, theta, omega⟩ := ang
    simp only at hw h1 h2 h3 h4 hok ⊢
    subst hw
    simp only [ctrl_decomp_zyz, Except.ok.injEq] at hok
    subst hok
    exact zyz_block hchar hunit phi theta omega cw t h1 h2 h3 h4
  · intro val pat convert_to_su2 root op cw t sol ar ai br bi ops
      hw hsol hx hc hd hobj hdet hok
    obtain ⟨nm, ws, ang, m⟩ := op
    simp only at hw hsol hc hd hobj hok ⊢
    subst hw
    by_cases hck : isclose (convert_to_su2 m).c.im 0 atol8 rtol5 ∧
        isclose (convert_to_su2 m).b.im 0 atol8 rtol5
    · simp only [ctrl_decomp_bisect_od, if_neg (not_not_intro hck)] at hok
      rcases bisect_compute_a_cases root (convert_to_su2 m) sol hsol with
        ⟨_, hbc⟩ | ⟨_, _, hbc⟩ | ⟨_, _, hbc⟩ <;> rw [hbc] at hok
      · cases hok
      · cases hok
      · simp only [hx] at hbc hok
        simp only [Except.ok.injEq] at hok
        subst hok
        exact bisect_block val pat ar ai br bi (convert_to_su2 m) cw t hobj hc hd hdet
    · simp only [ctrl_decomp_bisect_od, if_pos hck] at hok
      cases hok

/-- Witness for claim C1: both halves applied at concrete identity-like
targets, the trivial valuation, and the all-active control pattern. -/
theorem ctrl_decomp_matrix_reconstruction_witness :
    seqBlock (fun _ => 1) (fun _ => true) [Op.MCX [1] 0 [], Op.MCX [1] 0 []] =
      ctrlBlock (rzM 1 * (ryM 1 * rzM 1)) [1] (fun _ => true) ∧
    seqBlock (fun _ => 1) (fun _ => true)
      [Op.MCX [] 0 [1], Op.QubitUnitary (_param_su2 1 0 0 0) 0,
       Op.MCX [1] 0 [], Op.AdjointUnitary (_param_su2 1 0 0 0) 0,
       Op.MCX [] 0 [1], Op.QubitUnitary (_param_su2 1 0 0 0) 0,
       Op.MCX [1] 0 [], Op.AdjointUnitary (_param_su2 1 0 0 0) 0] =
      ctrlBlock 1 [1] (fun _ => true) := by
  constructor
  · exact ctrl_decomp_matrix_reconstruction.1 (fun _ => 1) (fun _ => true)
      ⟨"Rot", [0], (0, 0, 0), 1⟩ [1] 0 [Op.MCX [1] 0 [], Op.MCX [1] 0 []]
      (fun a b => by simp) (fun a => by simp)
      rfl (fun _ => rfl) (fun _ => rfl) (fun _ => by norm_num) (fun _ => by norm_num)
      (by norm_num [ctrl_decomp_zyz, zyz_decomp_ops, isclose, atol8, atol6, abs_le])
  · exact ctrl_decomp_matrix_reconstruction.2 (fun _ => 1) (fun _ => true)
      (fun _ => 1) (fun _ _ => ⟨true, (1, 0, 0, 0)⟩)
      ⟨"Z", [0], (0, 0, 0), 1⟩ [1] 0 ⟨true, (1, 0, 0, 0)⟩ 1 0 0 0
      [Op.MCX [] 0 [1], Op.QubitUnitary (_param_su2 1 0 0 0) 0,
       Op.MCX [1] 0 [], Op.AdjointUnitary (_param_su2 1 0 0 0) 0,
       Op.MCX [] 0 [1], Op.QubitUnitary (_param_su2 1 0 0 0) 0,
       Op.MCX [1] 0 [], Op.AdjointUnitary (_param_su2 1 0 0 0) 0]
      rfl rfl rfl (by apply Cplx.ext2 <;> simp) (by apply Cplx.ext2 <;> simp [conj])
      (by norm_num [optfunc, expect_u, _flatreals, row0, _param_su2, _matrix_adjoint,
        M2.adjoint, sx, conj, M2.mul])
      (by apply Cplx.ext2 <;> norm_num [_param_su2, M2.det])
      (by norm_num [ctrl_decomp_bisect_od, _bisect_compute_a, optfunc, expect_u,
        _flatreals, row0, _param_su2, _matrix_adjoint, M2.adjoint, M2.det, sx, conj, M2.mul,
        isclose, iscloseDet1, atol8, rtol5, Cplx.normSq])

/-- Witness for the amended claim C2, at the identity target and a solver
pair that agree there. -/
theorem optfunc_row_objective_witness :
    (optfunc 1 (1, 0, 0, 0) = [(expect_u (1, 0, 0, 0) - 1).a.re, (expect_u (1, 0, 0, 0) - 1).b.re,
      (expect_u (1, 0, 0, 0) - 1).a.im, (expect_u (1, 0, 0, 0) - 1).b.im] ∧
    (optfunc 1 (1, 0, 0, 0) = [0, 0, 0, 0] ↔
      (expect_u (1, 0, 0, 0)).a = (1 : M2).a ∧ (expect_u (1, 0, 0, 0)).b = (1 : M2).b) ∧
    ((fun _ _ => (⟨true, (1, 0, 0, 0)⟩ : RootResult)) (optfunc 1) (1, 0, 0, 0) =
        (fun _ _ => (⟨true, (1, 0, 0, 0)⟩ : RootResult)) (optfunc 1) (1, 0, 0, 0) →
      _bisect_compute_a (fun _ _ => ⟨true, (1, 0, 0, 0)⟩) 1 =
        _bisect_compute_a (fun _ _ => ⟨true, (1, 0, 0, 0)⟩) 1)) :=
  optfunc_row_objective 1 (1, 0, 0, 0) (fun _ _ => ⟨true, (1, 0, 0, 0)⟩)
    (fun _ _ => ⟨true, (1, 0, 0, 0)⟩)

end PennyLane
